import Mathlib

/-!
# MPU6050 sampling, orientation and framing pipeline (`main.c`)

A shallow embedding of `mpu6050_read_raw` and of the body of the `while (1)` loop of
`mpu6050_task`, and the properties of the frames it writes on the serial link.

Conventions of the embedding.

* The target is a 32-bit two's-complement machine: `int` ranges over `[INT_MIN, INT_MAX]`.
  Machine integers are mathematical integers; every narrowing conversion is written as an
  explicit reduction (`to_uint8`, `to_int16`).  Right shift of a signed `int` is arithmetic.
* A finite `float` is the rational number it denotes.  `fl32` is rounding to the nearest
  binary32 value, `float_to_int` is the cast `(int) x`.
* A computation whose behaviour the C language leaves undefined returns `none`.
* The serial link is the list of bytes written so far, oldest first.
* The Fusion library (`Fusion.h`) is not part of the program; it is a parameter.
-/

namespace Mpu6050

/-! ## Machine integers -/

/-- An 8-bit unsigned byte (`uint8_t`, and `char` as it is put on the wire). -/
abbrev uint8_t := Fin 256

/-- Smallest value of `int`. -/
def INT_MIN : Int := -2147483648

/-- Largest value of `int`. -/
def INT_MAX : Int := 2147483647

/-- Conversion of an `int` to `uint8_t` (or to `char`, seen as the byte transmitted):
reduction modulo 256. -/
def to_uint8 (x : Int) : uint8_t := ⟨(x % 256).toNat, by omega⟩

/-- Conversion of an `int` to `int16_t`: reduction modulo 65536 into `[-32768, 32767]`. -/
def to_int16 (x : Int) : Int := (x + 32768) % 65536 - 32768

/-- The library function `abs` on `int`; its result is undefined at `INT_MIN`. -/
def c_abs (x : Int) : Option Int :=
  if x = INT_MIN then none else some (if x < 0 then -x else x)

/-! ## Floating point -/

/-- Round a rational to an integer, to nearest, ties to even. -/
def round_half_even (x : ℚ) : Int :=
  let f := ⌊x⌋
  let d := x - f
  if d < 1 / 2 then f
  else if 1 / 2 < d then f + 1
  else if f % 2 = 0 then f else f + 1

/-- Rounding of a rational to the nearest binary32 value (24-bit significand, minimum
exponent -126, ties to even).  Overflow to infinity, which needs a magnitude of at least
`2 ^ 128`, is not represented. -/
def fl32 (x : ℚ) : ℚ :=
  if x = 0 then 0
  else
    let e := max (Int.log 2 |x|) (-126)
    let ulp : ℚ := 2 ^ (e - 23)
    round_half_even (x / ulp) * ulp

/-- The cast `(int) x` of a finite `float`: truncation toward zero; undefined when the
truncated value is not an `int`. -/
def float_to_int (x : ℚ) : Option Int :=
  let t := Int.tdiv x.num x.den
  if INT_MIN ≤ t ∧ t ≤ INT_MAX then some t else none

/-! ## Serial link -/

/-- `uart_putc_raw(UART_ID, c)`: the argument is converted to `char` and that byte is
written on the link. -/
def uart_putc_raw (uart : List uint8_t) (c : Int) : List uint8_t :=
  uart ++ [to_uint8 c]

/-! ## Sensor link (`mpu6050_read_raw`, lines 29-62) -/

/-- The bytes the sensor delivers to the three burst reads of one call of
`mpu6050_read_raw`, and the indeterminate contents `stale` of the local `buffer` before
the first read. -/
structure BusData where
  stale : Fin 6 → uint8_t
  accel : Fin 6 → uint8_t
  gyro : Fin 6 → uint8_t
  temp : Fin 2 → uint8_t

/-- `i2c_read_blocking(i2c_default, MPU_ADDRESS, buffer, n, false)`: the first `n` bytes of
`buffer` are overwritten with the bytes read. -/
def i2c_read_blocking {n : Nat} (buffer : Fin 6 → uint8_t) (data : Fin n → uint8_t) :
    Fin 6 → uint8_t :=
  fun i => if h : i.val < n then data ⟨i.val, h⟩ else buffer i

/-- The expression `hi << 8 | lo` of two bytes of `buffer`, stored into an `int16_t`:
both bytes are promoted to (non-negative) `int`, combined, and the result is converted
to 16 bits. -/
def be16 (hi lo : uint8_t) : Int :=
  to_int16 ((hi.val <<< 8 ||| lo.val : Nat) : Int)

/-- The raw sample returned through the three out-parameters of `mpu6050_read_raw`. -/
structure RawSample where
  accel : Fin 3 → Int
  gyro : Fin 3 → Int
  temp : Int

/-- One call of `mpu6050_read_raw`. -/
def mpu6050_read_raw (bus : BusData) : RawSample :=
  let buffer := i2c_read_blocking bus.stale bus.accel
  let accel : Fin 3 → Int := fun i =>
    be16 (buffer ⟨i.val * 2, by omega⟩) (buffer ⟨i.val * 2 + 1, by omega⟩)
  let buffer := i2c_read_blocking buffer bus.gyro
  let gyro : Fin 3 → Int := fun i =>
    be16 (buffer ⟨i.val * 2, by omega⟩) (buffer ⟨i.val * 2 + 1, by omega⟩)
  let buffer := i2c_read_blocking buffer bus.temp
  let temp := be16 (buffer 0) (buffer 1)
  { accel := accel, gyro := gyro, temp := temp }

/-! ## The Fusion library, as a parameter -/

/-- A `FusionVector`: three `float` components. -/
structure FusionVector where
  x : ℚ
  y : ℚ
  z : ℚ
deriving DecidableEq

/-- A `FusionEuler`: roll, pitch and yaw, three `float` angles in degrees. -/
structure FusionEuler where
  roll : ℚ
  pitch : ℚ
  yaw : ℚ
deriving DecidableEq

/-- The operations of the Fusion library that `mpu6050_task` calls, over the state `σ`
of a `FusionAhrs`. -/
structure Fusion (σ : Type) where
  /-- The state after `FusionAhrsInitialise(&ahrs)`. -/
  FusionAhrsInitialise : σ
  /-- The state after `FusionAhrsUpdateNoMagnetometer(&ahrs, gyroscope, accelerometer, dt)`. -/
  FusionAhrsUpdateNoMagnetometer : σ → FusionVector → FusionVector → ℚ → σ
  /-- The value of `FusionQuaternionToEuler(FusionAhrsGetQuaternion(&ahrs))`. -/
  FusionQuaternionToEuler : σ → FusionEuler

/-! ## The pipeline loop (`mpu6050_task`, lines 79-143) -/

/-- Lines 85-89: the `gyroscope` vector, each raw reading converted to `float` (exactly)
and divided by `131.0f`. -/
def gyroscope (gyro : Fin 3 → Int) : FusionVector :=
  { x := fl32 ((gyro 0 : ℚ) / 131)
    y := fl32 ((gyro 1 : ℚ) / 131)
    z := fl32 ((gyro 2 : ℚ) / 131) }

/-- Lines 91-95: the `accelerometer` vector, each raw reading converted to `float`
(exactly) and divided by `16384.0f`. -/
def accelerometer (acceleration : Fin 3 → Int) : FusionVector :=
  { x := fl32 ((acceleration 0 : ℚ) / 16384)
    y := fl32 ((acceleration 1 : ℚ) / 16384)
    z := fl32 ((acceleration 2 : ℚ) / 16384) }

/-- Lines 110-116: the two bytes of `yaw` and the four writes of the channel 0 frame. -/
def send_yaw (uart : List uint8_t) (yaw : Int) : List uint8_t :=
  let mais_sig : uint8_t := to_uint8 (Int.land (yaw >>> (8 : Nat)) 0xFF)
  let menos_sig : uint8_t := to_uint8 (Int.land yaw 0xFF)
  let uart := uart_putc_raw uart 0
  let uart := uart_putc_raw uart mais_sig.val
  let uart := uart_putc_raw uart menos_sig.val
  uart_putc_raw uart (-1)

/-- Lines 125-131: the two bytes of `angle` and the four writes of the channel 1 frame. -/
def send_angle (uart : List uint8_t) (angle : Int) : List uint8_t :=
  let mais_sig_ang : uint8_t := to_uint8 (Int.land (angle >>> (8 : Nat)) 0xFF)
  let menos_sig_ang : uint8_t := to_uint8 (Int.land angle 0xFF)
  let uart := uart_putc_raw uart 1
  let uart := uart_putc_raw uart mais_sig_ang.val
  let uart := uart_putc_raw uart menos_sig_ang.val
  uart_putc_raw uart (-1)

/-- Lines 133-134: `int accel = abs(acceleration[1])` and the test `accel > 17000`.
The inner option is the shock event: its magnitude when present. -/
def detect (acceleration1 : Int) : Option (Option Int) := do
  let accel ← c_abs acceleration1
  if accel > 17000 then pure (some accel) else pure none

/-- Lines 133-139: the conditional channel 2 frame. -/
def send_accel (uart : List uint8_t) (acceleration1 : Int) : Option (List uint8_t) := do
  let event ← detect acceleration1
  match event with
  | some accel =>
    let uart := uart_putc_raw uart 2
    let uart := uart_putc_raw uart 0
    let uart := uart_putc_raw uart (Int.land (accel >>> (8 : Nat)) 0xFF)
    pure (uart_putc_raw uart (-1))
  | none => pure uart

/-- Lines 103-139: everything the loop body does with the Euler angles and the raw
reading of acceleration axis 1. -/
def send_frames (uart : List uint8_t) (euler : FusionEuler) (acceleration1 : Int) :
    Option (List uint8_t) := do
  let yaw ← float_to_int euler.yaw
  let uart := send_yaw uart yaw
  let angle ← float_to_int (-euler.roll)
  let uart := send_angle uart angle
  send_accel uart acceleration1

/-- Lines 85-97: the estimator state after the update with the converted sample and the
time step `0.01`, converted to `float`. -/
def ahrs_update {σ : Type} (F : Fusion σ) (s : RawSample) (ahrs : σ) : σ :=
  F.FusionAhrsUpdateNoMagnetometer ahrs (gyroscope s.gyro) (accelerometer s.accel)
    (fl32 (1 / 100))

/-- Lines 85-139: the loop body after the sensor has been read. -/
def mpu6050_task_body {σ : Type} (F : Fusion σ) (s : RawSample) (ahrs : σ)
    (uart : List uint8_t) : Option (σ × List uint8_t) := do
  let ahrs := ahrs_update F s ahrs
  let euler := F.FusionQuaternionToEuler ahrs
  let uart ← send_frames uart euler (s.accel 1)
  pure (ahrs, uart)

/-- Lines 80-142: one iteration of the loop; `bus` is what the sensor delivers to it. -/
def mpu6050_task_iter {σ : Type} (F : Fusion σ) (bus : BusData) (ahrs : σ)
    (uart : List uint8_t) : Option (σ × List uint8_t) :=
  mpu6050_task_body F (mpu6050_read_raw bus) ahrs uart

/-- The first iterations of the `while (1)` loop, one per element of `buses`. -/
def mpu6050_task_loop {σ : Type} (F : Fusion σ) :
    List BusData → σ → List uint8_t → Option (σ × List uint8_t)
  | [], ahrs, uart => some (ahrs, uart)
  | bus :: buses, ahrs, uart => do
    let (ahrs, uart) ← mpu6050_task_iter F bus ahrs uart
    mpu6050_task_loop F buses ahrs uart

/-- Lines 76-79: the loop started from the initialised estimator and a silent link. -/
def mpu6050_task {σ : Type} (F : Fusion σ) (buses : List BusData) :
    Option (σ × List uint8_t) :=
  mpu6050_task_loop F buses F.FusionAhrsInitialise []


/-! ## Reading the stream back -/

/-- The channel tags of a stream of fixed 4-byte frames: the first byte of every complete
group of four, as a receiver doing fixed-size reads sees them. -/
def frame_tags : List uint8_t → List uint8_t
  | t :: _ :: _ :: _ :: rest => t :: frame_tags rest
  | _ => []

/-- Truncation of a rational toward zero. -/
def trunc (x : ℚ) : Int := if 0 ≤ x then ⌊x⌋ else ⌈x⌉

/-- The component of a `FusionVector` on axis `i` (its `array[i]`). -/
def FusionVector.array (v : FusionVector) (i : Fin 3) : ℚ :=
  if i = 0 then v.x else if i = 1 then v.y else v.z

/-- The angles on which both casts of the loop body are defined: the integer parts of
the yaw and of the negated roll are values of `int`, that is, the yaw and the negated
roll lie strictly between `INT_MIN - 1` and `INT_MAX + 1`. -/
def castable (euler : FusionEuler) : Prop :=
  -2147483649 < euler.yaw ∧ euler.yaw < 2147483648 ∧
  -2147483648 < euler.roll ∧ euler.roll < 2147483649

/-- The reading of acceleration axis 1 exceeds the shock threshold. -/
def shock (r : Int) : Prop := 17000 < |r|

instance (euler : FusionEuler) : Decidable (castable euler) := by
  unfold castable; infer_instance

instance (r : Int) : Decidable (shock r) :=
  inferInstanceAs (Decidable (17000 < |r|))

/-- An estimator that reports the same angles `euler` whatever it is fed: the simplest
instance of the library parameter. -/
def constant_estimator (euler : FusionEuler) : Fusion Unit :=
  { FusionAhrsInitialise := ()
    FusionAhrsUpdateNoMagnetometer := fun _ _ _ _ => ()
    FusionQuaternionToEuler := fun _ => euler }

/-- The bytes of one cycle, as the wire protocol describes them: the channel 0 frame of
`yaw`, the channel 1 frame of `angle`, and the channel 2 frame when the reading `r` of
acceleration axis 1 exceeds the threshold. -/
def cycle_frames (yaw angle r : Int) : List uint8_t :=
  [0, to_uint8 (yaw / 256), to_uint8 yaw, 255, 1, to_uint8 (angle / 256), to_uint8 angle, 255]
    ++ if 17000 < |r| then [2, 0, to_uint8 (|r| / 256), 255] else []

/-- The number of cycles of a run whose reading of acceleration axis 1 exceeds the
threshold. -/
def shock_count (buses : List BusData) : Nat :=
  buses.countP (fun bus => decide (shock ((mpu6050_read_raw bus).accel 1)))

/-- What the wire protocol promises of a byte stream: whole 4-byte frames, every byte at
an index congruent to 3 modulo 4 the terminator `0xFF`, every byte at an index congruent
to 0 modulo 4 a channel tag 0, 1 or 2. -/
def well_framed (l : List uint8_t) : Prop :=
  l.length % 4 = 0 ∧
  ∀ j, j < l.length →
    (j % 4 = 3 → l[j]? = some 0xFF) ∧
    (j % 4 = 0 → l[j]? = some 0 ∨ l[j]? = some 1 ∨ l[j]? = some 2)

/-- The output `out` is what the cycle fed with `bus` writes on a silent link, from some
estimator state: the frames of some `yaw` and `angle` and of the reading of that cycle. -/
def cycle_output {σ : Type} (F : Fusion σ) (bus : BusData) (out : List uint8_t) : Prop :=
  ∃ (ahrs : σ) (yaw angle : Int),
    mpu6050_task_iter F bus ahrs [] =
      some (ahrs_update F (mpu6050_read_raw bus) ahrs, out) ∧
    out = cycle_frames yaw angle ((mpu6050_read_raw bus).accel 1)

/-- A burst of acceleration registers whose axis 1 reads `0x4650 = 18000`, above the
threshold, with gyroscope and temperature registers at zero. -/
def bus_shock : BusData :=
  { stale := ![0, 0, 0, 0, 0, 0]
    accel := ![0, 0, 0x46, 0x50, 0, 0]
    gyro := ![0, 0, 0, 0, 0, 0]
    temp := ![0, 0] }

/-! ## Arithmetic of the byte operations -/

theorem land_255 (x : Int) : Int.land x 255 = x % 256 := by
  cases x with
  | ofNat m =>
    show ((m &&& 255 : Nat) : Int) = (m : Int) % 256
    have : m &&& 255 = m % 256 := Nat.and_pow_two_sub_one_eq_mod m 8
    rw [this]; rfl
  | negSucc m =>
    show ((Nat.ldiff 255 m : Nat) : Int) = _
    have h : Nat.ldiff 255 m = 255 - m % 256 := by
      apply Nat.eq_of_testBit_eq
      intro i
      rw [Nat.testBit_ldiff]
      have h1 : (255 : Nat) = 2 ^ 8 - 1 := by norm_num
      have h2 : 255 - m % 256 = 2 ^ 8 - (m % 2 ^ 8 + 1) := by norm_num; omega
      rw [h2, Nat.testBit_two_pow_sub_succ (Nat.mod_lt _ (by norm_num)), h1,
        Nat.testBit_two_pow_sub_one, Nat.testBit_mod_two_pow]
      by_cases hi : i < 8 <;> simp [hi]
    rw [h]
    have := Int.negSucc_eq m
    omega

theorem shr_8 (x : Int) : x >>> (8 : Nat) = x / 256 := by
  rw [Int.shiftRight_eq_div_pow]; norm_num

theorem to_uint8_val (x : Int) : ((to_uint8 x).val : Int) = x % 256 := by
  simp only [to_uint8]; omega

theorem to_uint8_mod (x : Int) : to_uint8 (x % 256) = to_uint8 x := by
  apply Fin.ext; simp only [to_uint8]; omega

theorem to_uint8_cast (b : uint8_t) : to_uint8 (b.val : Int) = b := by
  apply Fin.ext; simp only [to_uint8]; omega

theorem be16_eq (hi lo : uint8_t) :
    be16 hi lo = to_int16 (256 * (hi.val : Int) + (lo.val : Int)) := by
  unfold be16
  have h : hi.val <<< 8 ||| lo.val = 2 ^ 8 * hi.val + lo.val := by
    rw [Nat.shiftLeft_eq, Nat.mul_comm]
    exact (Nat.mul_add_lt_is_or lo.is_lt hi.val).symm
  rw [h]
  push_cast
  rfl

theorem send_yaw_eq (uart : List uint8_t) (v : Int) :
    send_yaw uart v = uart ++ [0, to_uint8 (v / 256), to_uint8 v, 255] := by
  simp only [send_yaw, uart_putc_raw, to_uint8_cast, land_255, shr_8, to_uint8_mod,
    List.append_assoc, List.cons_append, List.nil_append]
  rfl

theorem send_angle_eq (uart : List uint8_t) (v : Int) :
    send_angle uart v = uart ++ [1, to_uint8 (v / 256), to_uint8 v, 255] := by
  simp only [send_angle, uart_putc_raw, to_uint8_cast, land_255, shr_8, to_uint8_mod,
    List.append_assoc, List.cons_append, List.nil_append]
  rfl

/-! ## The cast from `float` to `int` -/

theorem tdiv_num_den (x : ℚ) : Int.tdiv x.num x.den = trunc x := by
  unfold trunc
  by_cases hx : 0 ≤ x
  · rw [if_pos hx, Rat.floor_def]
    exact Int.tdiv_eq_ediv (Rat.num_nonneg.mpr hx) (Int.ofNat_nonneg _)
  · rw [if_neg hx]
    have hneg : 0 ≤ -x := by linarith [not_le.mp hx]
    have h1 : Int.tdiv (-x).num (-x).den = ⌊-x⌋ := by
      rw [Rat.floor_def]
      exact Int.tdiv_eq_ediv (Rat.num_nonneg.mpr hneg) (Int.ofNat_nonneg _)
    rw [Rat.neg_num, Rat.neg_den, Int.neg_tdiv, Int.floor_neg] at h1
    exact neg_injective h1

theorem trunc_neg (x : ℚ) : trunc (-x) = -trunc x := by
  rw [← tdiv_num_den, ← tdiv_num_den, Rat.neg_num, Rat.neg_den, Int.neg_tdiv]

theorem float_to_int_eq (x : ℚ) (h1 : -2147483649 < x) (h2 : x < 2147483648) :
    float_to_int x = some (trunc x) := by
  have hlo : INT_MIN ≤ trunc x := by
    unfold trunc INT_MIN
    by_cases hx : 0 ≤ x
    · rw [if_pos hx]
      have : (0 : Int) ≤ ⌊x⌋ := Int.floor_nonneg.mpr hx
      omega
    · rw [if_neg hx]
      have : ((-2147483649 : Int) : ℚ) < ⌈x⌉ := by
        push_cast
        exact lt_of_lt_of_le h1 (Int.le_ceil x)
      have : (-2147483649 : Int) < ⌈x⌉ := by exact_mod_cast this
      omega
  have hhi : trunc x ≤ INT_MAX := by
    unfold trunc INT_MAX
    by_cases hx : 0 ≤ x
    · rw [if_pos hx]
      have : ((⌊x⌋ : Int) : ℚ) < ((2147483648 : Int) : ℚ) := by
        push_cast
        exact lt_of_le_of_lt (Int.floor_le x) h2
      have : ⌊x⌋ < (2147483648 : Int) := by exact_mod_cast this
      omega
    · rw [if_neg hx]
      have : ⌈x⌉ ≤ (0 : Int) := Int.ceil_le.mpr (by push_cast; linarith [not_le.mp hx])
      omega
  simp only [float_to_int, tdiv_num_den]
  rw [if_pos ⟨hlo, hhi⟩]

theorem float_to_int_isSome_iff (x : ℚ) :
    (float_to_int x).isSome ↔ -2147483649 < x ∧ x < 2147483648 := by
  constructor
  · intro h
    simp only [float_to_int, tdiv_num_den] at h
    by_cases hr : INT_MIN ≤ trunc x ∧ trunc x ≤ INT_MAX
    · obtain ⟨hlo, hhi⟩ := hr
      unfold trunc at hlo hhi
      unfold INT_MIN at hlo
      unfold INT_MAX at hhi
      by_cases hx : 0 ≤ x
      · rw [if_pos hx] at hhi
        have h1 := Int.lt_floor_add_one x
        have h2 : ((⌊x⌋ : Int) : ℚ) ≤ ((2147483647 : Int) : ℚ) := by exact_mod_cast hhi
        push_cast at h2
        constructor <;> linarith
      · rw [if_neg hx] at hlo
        have h1 := Int.ceil_lt_add_one x
        have h2 : ((-2147483648 : Int) : ℚ) ≤ ((⌈x⌉ : Int) : ℚ) := by exact_mod_cast hlo
        push_cast at h2
        have hx := not_le.mp hx
        constructor <;> linarith
    · rw [if_neg hr] at h
      exact absurd h (by simp)
  · rintro ⟨h1, h2⟩
    rw [float_to_int_eq x h1 h2]
    rfl

theorem castable_iff (euler : FusionEuler) :
    castable euler ↔
      (float_to_int euler.yaw).isSome ∧ (float_to_int (-euler.roll)).isSome := by
  rw [float_to_int_isSome_iff, float_to_int_isSome_iff]
  unfold castable
  constructor
  · rintro ⟨h1, h2, h3, h4⟩
    exact ⟨⟨h1, h2⟩, by linarith, by linarith⟩
  · rintro ⟨⟨h1, h2⟩, h3, h4⟩
    exact ⟨h1, h2, by linarith, by linarith⟩

/-! ## The shock test -/

theorem c_abs_eq (r : Int) (h : r ≠ INT_MIN) : c_abs r = some |r| := by
  unfold c_abs
  rw [if_neg h]
  by_cases hr : r < 0
  · rw [if_pos hr, abs_of_neg hr]
  · rw [if_neg hr, abs_of_nonneg (not_lt.mp hr)]

theorem detect_eq (r : Int) (h : r ≠ INT_MIN) :
    detect r = some (if 17000 < |r| then some |r| else none) := by
  unfold detect
  rw [c_abs_eq r h]
  by_cases hs : 17000 < |r|
  · simp [hs]
  · simp [hs]

theorem int16_ne_INT_MIN (r : Int) (h : -32768 ≤ r) : r ≠ INT_MIN := by
  unfold INT_MIN; omega

theorem send_accel_eq (uart : List uint8_t) (r : Int) (h : r ≠ INT_MIN) :
    send_accel uart r =
      some (uart ++ if 17000 < |r| then [2, 0, to_uint8 (|r| / 256), 255] else []) := by
  unfold send_accel
  rw [detect_eq r h]
  by_cases hs : 17000 < |r|
  · simp only [if_pos hs, uart_putc_raw, land_255, shr_8, to_uint8_mod, List.append_assoc,
      List.cons_append, List.nil_append]
    rfl
  · simp [hs]

theorem send_frames_eq (uart : List uint8_t) (euler : FusionEuler) (r : Int)
    (hc : castable euler) (h : r ≠ INT_MIN) :
    send_frames uart euler r =
      some (uart ++ cycle_frames (trunc euler.yaw) (-trunc euler.roll) r) := by
  obtain ⟨h1, h2, h3, h4⟩ := hc
  unfold send_frames cycle_frames
  rw [float_to_int_eq _ h1 h2, float_to_int_eq (-euler.roll) (by linarith) (by linarith),
    trunc_neg]
  simp only [Option.bind_eq_bind, Option.some_bind, send_yaw_eq, send_angle_eq,
    send_accel_eq _ r h, List.append_assoc, List.cons_append, List.nil_append]

theorem body_eq {σ : Type} (F : Fusion σ) (s : RawSample) (ahrs : σ) (uart : List uint8_t)
    (hc : castable (F.FusionQuaternionToEuler (ahrs_update F s ahrs)))
    (h : s.accel 1 ≠ INT_MIN) :
    mpu6050_task_body F s ahrs uart =
      some (ahrs_update F s ahrs,
        uart ++ cycle_frames (trunc (F.FusionQuaternionToEuler (ahrs_update F s ahrs)).yaw)
          (-trunc (F.FusionQuaternionToEuler (ahrs_update F s ahrs)).roll) (s.accel 1)) := by
  unfold mpu6050_task_body
  simp only [send_frames_eq _ _ _ hc h, Option.bind_eq_bind, Option.some_bind, Option.pure_def]

theorem cycle_frames_length (y a r : Int) :
    (cycle_frames y a r).length = if 17000 < |r| then 12 else 8 := by
  unfold cycle_frames
  by_cases hs : 17000 < |r| <;> simp [hs]

theorem cycle_frames_tags (y a r : Int) :
    frame_tags (cycle_frames y a r) = if 17000 < |r| then [0, 1, 2] else [0, 1] := by
  unfold cycle_frames
  by_cases hs : 17000 < |r| <;> simp [hs, frame_tags]

/-! ## Frame encoder -/

/-- C1. For every `int` value `v`, the channel 0 code (`yaw`) and the channel 1 code
(`angle`) append exactly the four bytes tag, `(v >> 8) & 0xFF`, `v & 0xFF`, `0xFF`; the
two middle bytes are the upper and the lower 8 bits of the 16-bit two's-complement
representation `v mod 65536` of `v`.  Value 300 on channel 0 gives `[0, 0x01, 0x2C, 0xFF]`
and value -45 on channel 1 gives `[1, 0xFF, 0xD3, 0xFF]`. -/
theorem frame_encoder_layout (uart : List uint8_t) (v : Int) :
    send_yaw uart v = uart ++ [0, to_uint8 (Int.land (v >>> (8 : Nat)) 0xFF),
      to_uint8 (Int.land v 0xFF), 0xFF] ∧
    send_angle uart v = uart ++ [1, to_uint8 (Int.land (v >>> (8 : Nat)) 0xFF),
      to_uint8 (Int.land v 0xFF), 0xFF] ∧
    ((to_uint8 (Int.land (v >>> (8 : Nat)) 0xFF)).val : Int) = v % 65536 / 256 ∧
    ((to_uint8 (Int.land v 0xFF)).val : Int) = v % 65536 % 256 ∧
    send_yaw [] 300 = [0, 0x01, 0x2C, 0xFF] ∧
    send_angle [] (-45) = [1, 0xFF, 0xD3, 0xFF] := by
  refine ⟨?_, ?_, ?_, ?_, ?_, ?_⟩
  · rw [send_yaw_eq, land_255, land_255, shr_8, to_uint8_mod, to_uint8_mod]
  · rw [send_angle_eq, land_255, land_255, shr_8, to_uint8_mod, to_uint8_mod]
  · rw [to_uint8_val, land_255, shr_8]; omega
  · rw [to_uint8_val, land_255]; omega
  · rw [send_yaw_eq]; decide
  · rw [send_angle_eq]; decide

/-- C7. For every `v` in `[-32768, 32767]`, the frame written for `v` on channel 0 or on
channel 1 is tag, `b1`, `b2`, `0xFF` with bytes `b1`, `b2` that, read back in that order
with the big-endian signed decoding of the sensor link, give `v` again, so two values of
that range with the same frame are equal.  For every `int` value whatever, the bytes at
positions 1 and 2 of its frame read back as `v` reduced modulo 65536 to 16 bits, the frame
is the frame of `v mod 65536`, and values that differ by a multiple of 65536 have
identical frames.  The encoder is a total function: it has no error result. -/
theorem frame_round_trip_and_wrap (uart : List uint8_t) (v w : Int) :
    (-32768 ≤ v ∧ v ≤ 32767 →
      ∃ b1 b2 : uint8_t,
        send_yaw uart v = uart ++ [0, b1, b2, 0xFF] ∧
        send_angle uart v = uart ++ [1, b1, b2, 0xFF] ∧
        be16 b1 b2 = v) ∧
    (∀ t b1 b2 : uint8_t,
      (send_yaw uart v = uart ++ [t, b1, b2, 0xFF] ∨
        send_angle uart v = uart ++ [t, b1, b2, 0xFF]) →
      be16 b1 b2 = to_int16 v ∧ (-32768 ≤ v ∧ v ≤ 32767 → be16 b1 b2 = v)) ∧
    (-32768 ≤ v ∧ v ≤ 32767 → -32768 ≤ w ∧ w ≤ 32767 →
      (send_yaw uart v = send_yaw uart w ∨ send_angle uart v = send_angle uart w) → v = w) ∧
    send_yaw uart v = send_yaw uart (v % 65536) ∧
    send_angle uart v = send_angle uart (v % 65536) ∧
    (∀ k : Int, send_yaw uart (v + 65536 * k) = send_yaw uart v ∧
      send_angle uart (v + 65536 * k) = send_angle uart v) := by
  have key : ∀ a b : Int, a % 65536 = b % 65536 →
      to_uint8 (a / 256) = to_uint8 (b / 256) ∧ to_uint8 a = to_uint8 b := by
    intro a b hab
    constructor <;> (apply Fin.ext; simp only [to_uint8]; omega)
  have back : ∀ a b : Int, -32768 ≤ a ∧ a ≤ 32767 → -32768 ≤ b ∧ b ≤ 32767 →
      to_uint8 (a / 256) = to_uint8 (b / 256) → to_uint8 a = to_uint8 b → a = b := by
    intro a b ha hb h1 h2
    have e1 := congrArg (fun t : uint8_t => (t.val : Int)) h1
    have e2 := congrArg (fun t : uint8_t => (t.val : Int)) h2
    simp only [to_uint8_val] at e1 e2
    omega
  have read : be16 (to_uint8 (v / 256)) (to_uint8 v) = to_int16 v := by
    rw [be16_eq, to_uint8_val, to_uint8_val]
    unfold to_int16
    omega
  have inrange : -32768 ≤ v ∧ v ≤ 32767 → to_int16 v = v := by
    intro hv
    unfold to_int16
    omega
  refine ⟨?_, ?_, ?_, ?_, ?_, ?_⟩
  · intro hv
    exact ⟨to_uint8 (v / 256), to_uint8 v, send_yaw_eq uart v, send_angle_eq uart v,
      read.trans (inrange hv)⟩
  · intro t b1 b2 h
    have hb : to_uint8 (v / 256) = b1 ∧ to_uint8 v = b2 := by
      rcases h with h | h
      · rw [send_yaw_eq] at h
        have h := List.append_cancel_left h
        simp only [List.cons.injEq, and_true] at h
        exact ⟨h.2.1, h.2.2⟩
      · rw [send_angle_eq] at h
        have h := List.append_cancel_left h
        simp only [List.cons.injEq, and_true] at h
        exact ⟨h.2.1, h.2.2⟩
    rw [← hb.1, ← hb.2]
    exact ⟨read, fun hv => read.trans (inrange hv)⟩
  · intro hv hw h
    rcases h with h | h
    · rw [send_yaw_eq, send_yaw_eq] at h
      have h := List.append_cancel_left h
      simp only [List.cons.injEq, and_true, true_and] at h
      exact back v w hv hw h.1 h.2
    · rw [send_angle_eq, send_angle_eq] at h
      have h := List.append_cancel_left h
      simp only [List.cons.injEq, and_true, true_and] at h
      exact back v w hv hw h.1 h.2
  · rw [send_yaw_eq, send_yaw_eq]
    obtain ⟨h1, h2⟩ := key v (v % 65536) (by omega)
    rw [h1, h2]
  · rw [send_angle_eq, send_angle_eq]
    obtain ⟨h1, h2⟩ := key v (v % 65536) (by omega)
    rw [h1, h2]
  · intro k
    obtain ⟨h1, h2⟩ := key (v + 65536 * k) v (by omega)
    rw [send_yaw_eq, send_yaw_eq, send_angle_eq, send_angle_eq, h1, h2]
    exact ⟨rfl, rfl⟩

/-- Witness of C7 at `v = -45`, `w = 300`: the frame of -45 reads back as -45. -/
theorem frame_round_trip_and_wrap_witness :
    (∃ b1 b2 : uint8_t,
      send_yaw [] (-45) = [] ++ [0, b1, b2, 0xFF] ∧
      send_angle [] (-45) = [] ++ [1, b1, b2, 0xFF] ∧
      be16 b1 b2 = -45) ∧
    send_yaw [] (-45) = send_yaw [] ((-45) % 65536) ∧
    send_yaw [] (-45 + 65536 * 3) = send_yaw [] (-45) :=
  ⟨(frame_round_trip_and_wrap [] (-45) 300).1 (by decide),
   (frame_round_trip_and_wrap [] (-45) 300).2.2.2.1,
   ((frame_round_trip_and_wrap [] (-45) 300).2.2.2.2.2 3).1⟩

/-! ## Event detector -/

/-- C2. For every signed 16-bit reading `r` of acceleration axis 1, `abs` is defined and
does not overflow, a shock event is present exactly when `|r| > 17000`, and its magnitude
is then `|r|`; `r = -32768` has magnitude 32768.  `detect 17001` is present with magnitude
17001, `detect 17000` is absent, `detect (-20000)` is present with magnitude 20000. -/
theorem event_detector_threshold (r : Int) (h16 : -32768 ≤ r ∧ r ≤ 32767) :
    c_abs r = some |r| ∧ |r| ≤ INT_MAX ∧
    detect r = some (if 17000 < |r| then some |r| else none) ∧
    ((∃ m, detect r = some (some m)) ↔ 17000 < |r|) ∧
    (detect r = some none ↔ ¬ 17000 < |r|) ∧
    (∀ m, detect r = some (some m) → m = |r|) ∧
    detect 17001 = some (some 17001) ∧
    detect 17000 = some none ∧
    detect (-20000) = some (some 20000) ∧
    detect (-32768) = some (some 32768) := by
  have hne := int16_ne_INT_MIN r h16.1
  have hd := detect_eq r hne
  refine ⟨c_abs_eq r hne, ?_, hd, ?_, ?_, ?_, by decide, by decide, by decide, by decide⟩
  · have := abs_le.mpr (show -(32768 : Int) ≤ r ∧ r ≤ 32768 from ⟨h16.1, by omega⟩)
    unfold INT_MAX; omega
  · rw [hd]
    by_cases hs : 17000 < |r| <;> simp [hs]
  · rw [hd]
    by_cases hs : 17000 < |r| <;> simp [hs]
  · intro m hm
    rw [hd] at hm
    by_cases hs : 17000 < |r|
    · rw [if_pos hs] at hm
      exact (Option.some.inj (Option.some.inj hm)).symm
    · rw [if_neg hs] at hm
      exact absurd (Option.some.inj hm) (by simp)

/-- Witness of C2 at the most negative reading. -/
theorem event_detector_threshold_witness :
    c_abs (-32768) = some |(-32768 : Int)| ∧
    detect (-32768) = some (if 17000 < |(-32768 : Int)| then some |(-32768 : Int)| else none) :=
  ⟨(event_detector_threshold (-32768) (by decide)).1,
   (event_detector_threshold (-32768) (by decide)).2.2.1⟩

/-- C4. For every signed 16-bit reading `r` of acceleration axis 1 with `|r| > 17000`, the
channel 2 code appends exactly `[2, 0, (|r| >> 8) & 0xFF, 0xFF]`, and in a cycle whose
casts are defined these four bytes are the third frame, after the 4-byte frames of
channels 0 and 1.  For `r = 18000` the cycle has three frames, the third being
`[2, 0, 70, 0xFF]`. -/
theorem channel2_frame_contents (r : Int) (h16 : -32768 ≤ r ∧ r ≤ 32767)
    (hs : 17000 < |r|) (uart : List uint8_t) :
    send_accel uart r =
      some (uart ++ [2, 0, to_uint8 (Int.land (|r| >>> (8 : Nat)) 0xFF), 0xFF]) ∧
    (∀ {σ : Type} (F : Fusion σ) (s : RawSample) (ahrs : σ),
      castable (F.FusionQuaternionToEuler (ahrs_update F s ahrs)) → s.accel 1 = r →
      ∃ f0 f1 : List uint8_t, f0.length = 4 ∧ f1.length = 4 ∧
        mpu6050_task_body F s ahrs uart = some (ahrs_update F s ahrs,
          uart ++ (f0 ++ f1 ++ [2, 0, to_uint8 (Int.land (|r| >>> (8 : Nat)) 0xFF), 0xFF]))) ∧
    (∀ {σ : Type} (F : Fusion σ) (s : RawSample) (ahrs : σ),
      castable (F.FusionQuaternionToEuler (ahrs_update F s ahrs)) → s.accel 1 = 18000 →
      ∃ f0 f1 : List uint8_t, f0.length = 4 ∧ f1.length = 4 ∧
        mpu6050_task_body F s ahrs uart = some (ahrs_update F s ahrs,
          uart ++ (f0 ++ f1 ++ [2, 0, 70, 0xFF]))) := by
  have hne := int16_ne_INT_MIN r h16.1
  have third : ∀ q : Int, -32768 ≤ q → 17000 < |q| →
      ∀ {σ : Type} (F : Fusion σ) (s : RawSample) (ahrs : σ),
      castable (F.FusionQuaternionToEuler (ahrs_update F s ahrs)) → s.accel 1 = q →
      ∃ f0 f1 : List uint8_t, f0.length = 4 ∧ f1.length = 4 ∧
        mpu6050_task_body F s ahrs uart = some (ahrs_update F s ahrs,
          uart ++ (f0 ++ f1 ++ [2, 0, to_uint8 (Int.land (|q| >>> (8 : Nat)) 0xFF), 0xFF])) := by
    intro q hq hsq σ F s ahrs hc hr
    refine ⟨[0, to_uint8 (trunc (F.FusionQuaternionToEuler (ahrs_update F s ahrs)).yaw / 256),
        to_uint8 (trunc (F.FusionQuaternionToEuler (ahrs_update F s ahrs)).yaw), 255],
      [1, to_uint8 (-trunc (F.FusionQuaternionToEuler (ahrs_update F s ahrs)).roll / 256),
        to_uint8 (-trunc (F.FusionQuaternionToEuler (ahrs_update F s ahrs)).roll), 255],
      rfl, rfl, ?_⟩
    rw [body_eq F s ahrs uart hc (by rw [hr]; exact int16_ne_INT_MIN q hq), hr]
    unfold cycle_frames
    rw [if_pos hsq, land_255, shr_8, to_uint8_mod]
    rfl
  refine ⟨?_, third r h16.1 hs, ?_⟩
  · rw [send_accel_eq uart r hne, if_pos hs, land_255, shr_8, to_uint8_mod]
  · intro σ F s ahrs hc hr
    exact third 18000 (by decide) (by decide) F s ahrs hc hr

/-- Witness of C4 at `r = 18000`, with an estimator reporting roll 45 and yaw 300. -/
theorem channel2_frame_contents_witness :
    send_accel [] 18000 = some [2, 0, 70, 0xFF] ∧
    ∃ f0 f1 : List uint8_t, f0.length = 4 ∧ f1.length = 4 ∧
      mpu6050_task_body (constant_estimator ⟨45, 0, 300⟩) ⟨![0, 18000, 0], ![0, 0, 0], 0⟩ () [] =
        some ((), [] ++ (f0 ++ f1 ++ [2, 0, 70, 0xFF])) :=
  ⟨(channel2_frame_contents 18000 (by decide) (by decide) []).1,
   (channel2_frame_contents 18000 (by decide) (by decide) []).2.2
     (constant_estimator ⟨45, 0, 300⟩) ⟨![0, 18000, 0], ![0, 0, 0], 0⟩ ()
     (by unfold castable constant_estimator; norm_num) rfl⟩

/-- C10. For every signed 16-bit reading `r` with `|r| > 17000`, the third byte of the
channel 2 frame is `floor (|r| / 256)`, the mask `& 0xFF` leaves `|r| >> 8` unchanged, and
the byte lies in `[66, 128]`: it is not 0, not the terminator `0xFF`, and not a channel
tag. -/
theorem shock_magnitude_byte_range (r : Int) (h16 : -32768 ≤ r ∧ r ≤ 32767)
    (hs : 17000 < |r|) (uart : List uint8_t) :
    send_accel uart r =
      some (uart ++ [2, 0, to_uint8 (Int.land (|r| >>> (8 : Nat)) 0xFF), 0xFF]) ∧
    Int.land (|r| >>> (8 : Nat)) 0xFF = |r| >>> (8 : Nat) ∧
    ((to_uint8 (Int.land (|r| >>> (8 : Nat)) 0xFF)).val : Int) = |r| / 256 ∧
    ((to_uint8 (Int.land (|r| >>> (8 : Nat)) 0xFF)).val : ℚ) = ⌊(|r| : ℚ) / 256⌋ ∧
    66 ≤ (to_uint8 (Int.land (|r| >>> (8 : Nat)) 0xFF)).val ∧
    (to_uint8 (Int.land (|r| >>> (8 : Nat)) 0xFF)).val ≤ 128 ∧
    to_uint8 (Int.land (|r| >>> (8 : Nat)) 0xFF) ≠ 0 ∧
    to_uint8 (Int.land (|r| >>> (8 : Nat)) 0xFF) ≠ 0xFF ∧
    to_uint8 (Int.land (|r| >>> (8 : Nat)) 0xFF) ≠ 1 ∧
    to_uint8 (Int.land (|r| >>> (8 : Nat)) 0xFF) ≠ 2 := by
  have hne := int16_ne_INT_MIN r h16.1
  have habs : |r| ≤ 32768 := abs_le.mpr ⟨by omega, by omega⟩
  have hv : ((to_uint8 (Int.land (|r| >>> (8 : Nat)) 0xFF)).val : Int) = |r| / 256 := by
    rw [to_uint8_val, land_255, shr_8]; omega
  have hlo : 66 ≤ (to_uint8 (Int.land (|r| >>> (8 : Nat)) 0xFF)).val := by omega
  have hhi : (to_uint8 (Int.land (|r| >>> (8 : Nat)) 0xFF)).val ≤ 128 := by omega
  have hneq : ∀ c : uint8_t, (c.val < 66 ∨ 128 < c.val) →
      to_uint8 (Int.land (|r| >>> (8 : Nat)) 0xFF) ≠ c := by
    intro c hc e
    rw [e] at hlo hhi
    omega
  refine ⟨?_, ?_, hv, ?_, hlo, hhi, hneq 0 (Or.inl (by decide)), hneq 0xFF (Or.inr (by decide)),
    hneq 1 (Or.inl (by decide)), hneq 2 (Or.inl (by decide))⟩
  · rw [send_accel_eq uart r hne, if_pos hs, land_255, shr_8, to_uint8_mod]
  · rw [land_255, shr_8]; omega
  · have h1 : ((to_uint8 (Int.land (|r| >>> (8 : Nat)) 0xFF)).val : ℚ) =
        (((to_uint8 (Int.land (|r| >>> (8 : Nat)) 0xFF)).val : Int) : ℚ) := by push_cast; rfl
    rw [h1, hv]
    have h2 : ⌊(|r| : ℚ) / 256⌋ = |r| / 256 := by
      have := Rat.floor_intCast_div_natCast |r| 256
      push_cast at this
      exact_mod_cast this
    rw [h2]

/-- Witness of C10 at the largest magnitude, `r = -32768`. -/
theorem shock_magnitude_byte_range_witness :
    send_accel [] (-32768) =
      some ([] ++ [2, 0, to_uint8 (Int.land (|(-32768 : Int)| >>> (8 : Nat)) 0xFF), 0xFF]) ∧
    (to_uint8 (Int.land (|(-32768 : Int)| >>> (8 : Nat)) 0xFF)).val ≤ 128 :=
  ⟨(shock_magnitude_byte_range (-32768) (by decide) (by decide) []).1,
   (shock_magnitude_byte_range (-32768) (by decide) (by decide) []).2.2.2.2.2.1⟩

/-! ## Sensor link -/

/-- C5. For every pair of bus bytes `hi`, `lo`, the decoded sample is the signed 16-bit
big-endian value: `hi * 256 + lo` when `hi < 128`, `hi * 256 + lo - 65536` otherwise,
always in `[-32768, 32767]`.  Axis `i` of the accelerometer and of the gyroscope is
decoded from bytes `2 i` and `2 i + 1` of its own 6-byte burst, and the temperature from
bytes 0 and 1 of its 2-byte burst. -/
theorem sensor_link_decoding (bus : BusData) (hi lo : uint8_t) :
    be16 hi lo = (if hi.val < 128 then (hi.val : Int) * 256 + lo.val
      else (hi.val : Int) * 256 + lo.val - 65536) ∧
    -32768 ≤ be16 hi lo ∧ be16 hi lo ≤ 32767 ∧
    (∀ i : Fin 3,
      (mpu6050_read_raw bus).accel i =
        be16 (bus.accel ⟨2 * i.val, by omega⟩) (bus.accel ⟨2 * i.val + 1, by omega⟩) ∧
      (mpu6050_read_raw bus).gyro i =
        be16 (bus.gyro ⟨2 * i.val, by omega⟩) (bus.gyro ⟨2 * i.val + 1, by omega⟩)) ∧
    (mpu6050_read_raw bus).temp = be16 (bus.temp 0) (bus.temp 1) := by
  have hhi := hi.is_lt
  have hlo := lo.is_lt
  refine ⟨?_, ?_, ?_, ?_, ?_⟩
  · rw [be16_eq]
    unfold to_int16
    by_cases h : hi.val < 128
    · rw [if_pos h]; omega
    · rw [if_neg h]; omega
  · rw [be16_eq]; unfold to_int16; omega
  · rw [be16_eq]; unfold to_int16; omega
  · intro i
    have hi2 : i.val * 2 = 2 * i.val := Nat.mul_comm _ _
    constructor
    · simp only [mpu6050_read_raw, i2c_read_blocking, hi2]
      rw [dif_pos (by omega), dif_pos (by omega)]
    · simp only [mpu6050_read_raw, i2c_read_blocking, hi2]
      rw [dif_pos (by omega), dif_pos (by omega)]
  · simp only [mpu6050_read_raw, i2c_read_blocking]
    rfl

/-! ## Channel 1 -/

/-- C3. For every raw sample whose axis-1 acceleration is a signed 16-bit value and every
orientation result on which the casts are defined, one pass of the loop body appends
exactly 8 bytes, two frames tagged 0 then 1, when the event detector reports absence, and
exactly 12 bytes, three frames tagged 0, 1, 2, when it reports presence; the detector
reports one or the other, so nothing else happens.  Raw acceleration `(0, 0, 16384)` with
raw gyroscope `(0, 0, 0)` gives exactly two frames, on channels 0 and 1. -/
theorem cycle_frame_order_and_count {σ : Type} (F : Fusion σ) (s : RawSample) (ahrs : σ)
    (uart : List uint8_t)
    (hc : castable (F.FusionQuaternionToEuler (ahrs_update F s ahrs)))
    (h16 : -32768 ≤ s.accel 1 ∧ s.accel 1 ≤ 32767) :
    ∃ out : List uint8_t,
      mpu6050_task_body F s ahrs uart = some (ahrs_update F s ahrs, uart ++ out) ∧
      (detect (s.accel 1) = some none ∨ ∃ m, detect (s.accel 1) = some (some m)) ∧
      (detect (s.accel 1) = some none → out.length = 8 ∧ frame_tags out = [0, 1]) ∧
      (∀ m, detect (s.accel 1) = some (some m) →
        out.length = 12 ∧ frame_tags out = [0, 1, 2]) ∧
      (s.accel = ![0, 0, 16384] → s.gyro = ![0, 0, 0] →
        out.length = 8 ∧ frame_tags out = [0, 1]) := by
  have hne := int16_ne_INT_MIN _ h16.1
  have hd := detect_eq _ hne
  refine ⟨_, body_eq F s ahrs uart hc hne, ?_, ?_, ?_, ?_⟩
  · rw [hd]
    by_cases hs : 17000 < |s.accel 1|
    · right; exact ⟨_, by rw [if_pos hs]⟩
    · left; rw [if_neg hs]
  · intro h
    rw [hd] at h
    have hs : ¬ 17000 < |s.accel 1| := by
      intro hs; rw [if_pos hs] at h; exact absurd (Option.some.inj h) (by simp)
    rw [cycle_frames_length, cycle_frames_tags, if_neg hs, if_neg hs]
    exact ⟨rfl, rfl⟩
  · intro m h
    rw [hd] at h
    have hs : 17000 < |s.accel 1| := by
      by_contra hs; rw [if_neg hs] at h; exact absurd (Option.some.inj h) (by simp)
    rw [cycle_frames_length, cycle_frames_tags, if_pos hs, if_pos hs]
    exact ⟨rfl, rfl⟩
  · intro ha _
    have hs : ¬ 17000 < |s.accel 1| := by
      rw [ha]; decide
    rw [cycle_frames_length, cycle_frames_tags, if_neg hs, if_neg hs]
    exact ⟨rfl, rfl⟩

/-- Witness of C3: the resting sample, with an estimator reporting zero angles. -/
theorem cycle_frame_order_and_count_witness :
    ∃ out : List uint8_t,
      mpu6050_task_body (constant_estimator ⟨0, 0, 0⟩) ⟨![0, 0, 16384], ![0, 0, 0], 0⟩ () [] =
        some ((), [] ++ out) ∧
      out.length = 8 ∧ frame_tags out = [0, 1] := by
  obtain ⟨out, h1, _, _, _, h5⟩ :=
    cycle_frame_order_and_count (constant_estimator ⟨0, 0, 0⟩)
      ⟨![0, 0, 16384], ![0, 0, 0], 0⟩ () []
      (by unfold castable constant_estimator; norm_num) (by decide)
  exact ⟨out, h1, h5 rfl rfl⟩

/-! ## A run of the loop -/

theorem be16_range (hi lo : uint8_t) : -32768 ≤ be16 hi lo ∧ be16 hi lo ≤ 32767 := by
  rw [be16_eq]; unfold to_int16; omega

theorem read_raw_accel_range (bus : BusData) (i : Fin 3) :
    -32768 ≤ (mpu6050_read_raw bus).accel i ∧ (mpu6050_read_raw bus).accel i ≤ 32767 := by
  simp only [mpu6050_read_raw]
  exact be16_range _ _

theorem iter_eq {σ : Type} (F : Fusion σ) (hF : ∀ a, castable (F.FusionQuaternionToEuler a))
    (bus : BusData) (ahrs : σ) (uart : List uint8_t) :
    mpu6050_task_iter F bus ahrs uart =
      some (ahrs_update F (mpu6050_read_raw bus) ahrs,
        uart ++ cycle_frames
          (trunc (F.FusionQuaternionToEuler (ahrs_update F (mpu6050_read_raw bus) ahrs)).yaw)
          (-trunc (F.FusionQuaternionToEuler (ahrs_update F (mpu6050_read_raw bus) ahrs)).roll)
          ((mpu6050_read_raw bus).accel 1)) := by
  unfold mpu6050_task_iter
  exact body_eq F _ ahrs uart (hF _) (int16_ne_INT_MIN _ (read_raw_accel_range bus 1).1)

theorem loop_eq {σ : Type} (F : Fusion σ) (hF : ∀ a, castable (F.FusionQuaternionToEuler a)) :
    ∀ (buses : List BusData) (ahrs : σ) (uart : List uint8_t),
      ∃ (ahrs1 : σ) (outs : List (List uint8_t)),
        mpu6050_task_loop F buses ahrs uart = some (ahrs1, uart ++ outs.flatten) ∧
        List.Forall₂ (cycle_output F) buses outs := by
  intro buses
  induction buses with
  | nil =>
    intro ahrs uart
    exact ⟨ahrs, [], by simp [mpu6050_task_loop], List.Forall₂.nil⟩
  | cons bus buses ih =>
    intro ahrs uart
    obtain ⟨ahrs1, outs, h1, h2⟩ := ih (ahrs_update F (mpu6050_read_raw bus) ahrs)
      (uart ++ cycle_frames
        (trunc (F.FusionQuaternionToEuler (ahrs_update F (mpu6050_read_raw bus) ahrs)).yaw)
        (-trunc (F.FusionQuaternionToEuler (ahrs_update F (mpu6050_read_raw bus) ahrs)).roll)
        ((mpu6050_read_raw bus).accel 1))
    refine ⟨ahrs1, cycle_frames
        (trunc (F.FusionQuaternionToEuler (ahrs_update F (mpu6050_read_raw bus) ahrs)).yaw)
        (-trunc (F.FusionQuaternionToEuler (ahrs_update F (mpu6050_read_raw bus) ahrs)).roll)
        ((mpu6050_read_raw bus).accel 1) :: outs, ?_,
      List.Forall₂.cons ⟨ahrs, _, _, ?_, rfl⟩ h2⟩
    · unfold mpu6050_task_loop
      rw [iter_eq F hF bus ahrs uart]
      simp only [Option.bind_eq_bind, Option.some_bind, h1, List.flatten_cons, List.append_assoc]
    · rw [iter_eq F hF bus ahrs [], List.nil_append]

theorem well_framed_nil : well_framed [] :=
  ⟨rfl, fun j hj => absurd hj (Nat.not_lt_zero j)⟩

theorem well_framed_cons (t a b : uint8_t) (l : List uint8_t)
    (ht : t = 0 ∨ t = 1 ∨ t = 2) (hl : well_framed l) :
    well_framed (t :: a :: b :: 255 :: l) := by
  obtain ⟨hlen, hidx⟩ := hl
  refine ⟨by simp only [List.length_cons]; omega, ?_⟩
  intro j hj
  simp only [List.length_cons] at hj
  by_cases h4 : j < 4
  · interval_cases j
    · refine ⟨fun h => absurd h (by decide), fun _ => ?_⟩
      rcases ht with h | h | h <;> simp [h]
    · exact ⟨fun h => absurd h (by decide), fun h => absurd h (by decide)⟩
    · exact ⟨fun h => absurd h (by decide), fun h => absurd h (by decide)⟩
    · exact ⟨fun _ => by simp, fun h => absurd h (by decide)⟩
  · obtain ⟨k, rfl⟩ : ∃ k, j = k + 4 := ⟨j - 4, by omega⟩
    have hk : k < l.length := by omega
    have hmod : (k + 4) % 4 = k % 4 := by omega
    rw [hmod]
    simpa only [List.getElem?_cons_succ] using hidx k hk

theorem well_framed_cycle_append (y a r : Int) (l : List uint8_t) (hl : well_framed l) :
    well_framed (cycle_frames y a r ++ l) := by
  unfold cycle_frames
  by_cases hs : 17000 < |r|
  · rw [if_pos hs]
    exact well_framed_cons _ _ _ _ (Or.inl rfl) (well_framed_cons _ _ _ _ (Or.inr (Or.inl rfl))
      (well_framed_cons _ _ _ _ (Or.inr (Or.inr rfl)) hl))
  · rw [if_neg hs]
    exact well_framed_cons _ _ _ _ (Or.inl rfl) (well_framed_cons _ _ _ _ (Or.inr (Or.inl rfl)) hl)

theorem frame_tags_cycle_append (y a r : Int) (l : List uint8_t) :
    frame_tags (cycle_frames y a r ++ l) =
      (if 17000 < |r| then [0, 1, 2] else [0, 1]) ++ frame_tags l := by
  unfold cycle_frames
  by_cases hs : 17000 < |r| <;> simp [hs, frame_tags]

theorem run_facts {σ : Type} (F : Fusion σ) (buses : List BusData)
    (outs : List (List uint8_t)) (h : List.Forall₂ (cycle_output F) buses outs) :
    outs.flatten.length = 4 * (2 * buses.length + shock_count buses) ∧
    well_framed outs.flatten ∧
    (frame_tags outs.flatten).count 2 = shock_count buses := by
  induction h with
  | nil => exact ⟨rfl, well_framed_nil, rfl⟩
  | @cons bus out buses outs hhd _ ih =>
    obtain ⟨_, y, a, _, rfl⟩ := hhd
    obtain ⟨ih1, ih2, ih3⟩ := ih
    have hc : shock_count (bus :: buses) =
        shock_count buses + if 17000 < |(mpu6050_read_raw bus).accel 1| then 1 else 0 := by
      unfold shock_count shock
      rw [List.countP_cons]
      by_cases hs : 17000 < |(mpu6050_read_raw bus).accel 1| <;> simp [hs]
    refine ⟨?_, ?_, ?_⟩
    · rw [List.flatten_cons, List.length_append, ih1, cycle_frames_length, hc, List.length_cons]
      by_cases hs : 17000 < |(mpu6050_read_raw bus).accel 1|
      · rw [if_pos hs, if_pos hs]; omega
      · rw [if_neg hs, if_neg hs]; omega
    · rw [List.flatten_cons]
      exact well_framed_cycle_append _ _ _ _ ih2
    · rw [List.flatten_cons, frame_tags_cycle_append, List.count_append, ih3, hc]
      by_cases hs : 17000 < |(mpu6050_read_raw bus).accel 1|
      · rw [if_pos hs, if_pos hs]
        have : List.count (2 : uint8_t) [0, 1, 2] = 1 := by decide
        rw [this]; omega
      · rw [if_neg hs, if_neg hs]
        have : List.count (2 : uint8_t) [0, 1] = 0 := by decide
        rw [this]; omega

theorem shock_count_all (buses : List BusData)
    (h : ∀ bus ∈ buses, shock ((mpu6050_read_raw bus).accel 1)) :
    shock_count buses = buses.length := by
  unfold shock_count
  rw [List.countP_eq_length]
  intro bus hb
  exact decide_eq_true (h bus hb)

/-- C9. For every run of `n` cycles in which the casts are defined, the loop returns and
the serial output is the concatenation of the outputs of the cycles, each of them what its
own iteration writes on a silent link; its length is `4 * (2 n + k)` bytes, `k` the number
of cycles whose axis-1 reading `r` has `|r| > 17000`; every byte at an index congruent to
3 modulo 4 is `0xFF` and every byte at an index congruent to 0 modulo 4 is a tag 0, 1 or 2.
A cycle writes one channel 2 frame when its own reading is above the threshold and none
otherwise, so the stream holds `k` channel 2 frames, and `n` of them when the condition
holds in all `n` cycles. -/
theorem run_stateless_detection {σ : Type} (F : Fusion σ)
    (hF : ∀ a, castable (F.FusionQuaternionToEuler a))
    (buses : List BusData) (ahrs : σ) (uart : List uint8_t) :
    ∃ (ahrs1 : σ) (outs : List (List uint8_t)),
      mpu6050_task_loop F buses ahrs uart = some (ahrs1, uart ++ outs.flatten) ∧
      List.Forall₂ (fun bus out =>
        (∃ a : σ, mpu6050_task_iter F bus a [] =
          some (ahrs_update F (mpu6050_read_raw bus) a, out)) ∧
        out.length = (if shock ((mpu6050_read_raw bus).accel 1) then 12 else 8) ∧
        (frame_tags out).count 2 =
          (if shock ((mpu6050_read_raw bus).accel 1) then 1 else 0)) buses outs ∧
      outs.flatten.length = 4 * (2 * buses.length + shock_count buses) ∧
      (∀ j, j < outs.flatten.length →
        (j % 4 = 3 → outs.flatten[j]? = some 0xFF) ∧
        (j % 4 = 0 → outs.flatten[j]? = some 0 ∨ outs.flatten[j]? = some 1 ∨
          outs.flatten[j]? = some 2)) ∧
      (frame_tags outs.flatten).count 2 = shock_count buses ∧
      ((∀ bus ∈ buses, shock ((mpu6050_read_raw bus).accel 1)) →
        (frame_tags outs.flatten).count 2 = buses.length) := by
  obtain ⟨ahrs1, outs, h1, h2⟩ := loop_eq F hF buses ahrs uart
  obtain ⟨f1, f2, f3⟩ := run_facts F buses outs h2
  refine ⟨ahrs1, outs, h1, ?_, f1, f2.2, f3, ?_⟩
  · refine List.Forall₂.imp ?_ h2
    rintro bus out ⟨a, y, g, hit, rfl⟩
    refine ⟨⟨a, hit⟩, ?_, ?_⟩
    · rw [cycle_frames_length]
      unfold shock
      by_cases hs : 17000 < |(mpu6050_read_raw bus).accel 1|
      · rw [if_pos hs]
      · rw [if_neg hs]
    · rw [cycle_frames_tags]
      unfold shock
      by_cases hs : 17000 < |(mpu6050_read_raw bus).accel 1|
      · rw [if_pos hs, if_pos hs]; decide
      · rw [if_neg hs, if_neg hs]; decide
  · intro hall
    rw [f3, shock_count_all buses hall]

/-- Witness of C9: two cycles, with an estimator reporting roll 45 and yaw 300. -/
theorem run_stateless_detection_witness :
    ∃ (ahrs1 : Unit) (outs : List (List uint8_t)),
      mpu6050_task_loop (constant_estimator ⟨45, 0, 300⟩) [bus_shock, bus_shock] () [] =
        some (ahrs1, [] ++ outs.flatten) ∧
      outs.flatten.length = 4 * (2 * 2 + shock_count [bus_shock, bus_shock]) := by
  obtain ⟨ahrs1, outs, h1, _, h3, _⟩ :=
    run_stateless_detection (constant_estimator ⟨45, 0, 300⟩)
      (fun _ => by unfold castable constant_estimator; norm_num)
      [bus_shock, bus_shock] () []
  exact ⟨ahrs1, outs, h1, h3⟩

/-! ## Unit converter -/

theorem round_half_even_err (x : ℚ) : |(round_half_even x : ℚ) - x| ≤ 1 / 2 := by
  have h1 := Int.floor_le x
  have h2 := Int.lt_floor_add_one x
  unfold round_half_even
  simp only
  split_ifs with ha hb hc
  · rw [abs_le]; constructor <;> linarith
  · rw [abs_le]; push_cast; constructor <;> linarith
  · rw [abs_le]; constructor <;> linarith
  · rw [abs_le]; push_cast; constructor <;> linarith

theorem round_half_even_int (n : Int) : round_half_even (n : ℚ) = n := by
  unfold round_half_even
  simp

theorem fl32_err (x : ℚ) :
    |fl32 x - x| ≤ 2 ^ (max (Int.log 2 |x|) (-126) - 24) := by
  unfold fl32
  by_cases hx : x = 0
  · rw [if_pos hx, hx]; simp; positivity
  · rw [if_neg hx]
    simp only
    set e := max (Int.log 2 |x|) (-126) with he
    have hu : (0 : ℚ) < 2 ^ (e - 23) := by positivity
    have h := round_half_even_err (x / 2 ^ (e - 23))
    have e1 : (round_half_even (x / 2 ^ (e - 23)) : ℚ) * 2 ^ (e - 23) - x =
        ((round_half_even (x / 2 ^ (e - 23)) : ℚ) - x / 2 ^ (e - 23)) * 2 ^ (e - 23) := by
      field_simp
    rw [e1, abs_mul, abs_of_pos hu]
    have e2 : (2 : ℚ) ^ (e - 24) = 1 / 2 * 2 ^ (e - 23) := by
      rw [show e - 23 = (e - 24) + 1 by ring, zpow_add₀ (by norm_num : (2 : ℚ) ≠ 0)]
      ring
    rw [e2]
    exact mul_le_mul_of_nonneg_right h hu.le

theorem log2_lt (x : ℚ) (hx : x ≠ 0) (k : Int) (h : |x| < 2 ^ k) : Int.log 2 |x| < k := by
  have := (Int.lt_zpow_iff_log_lt (R := ℚ) (b := 2) (by norm_num) (abs_pos.mpr hx)).mp
    (by exact_mod_cast h)
  exact this

theorem le_log2 (x : ℚ) (hx : x ≠ 0) (k : Int) (h : 2 ^ k ≤ |x|) : k ≤ Int.log 2 |x| := by
  have := (Int.zpow_le_iff_le_log (R := ℚ) (b := 2) (by norm_num) (abs_pos.mpr hx)).mp
    (by exact_mod_cast h)
  exact this

theorem fl32_err_small (x : ℚ) (h : |x| < 256) : |fl32 x - x| ≤ 1 / 131072 := by
  by_cases hx : x = 0
  · rw [hx]; unfold fl32; simp
  · have h1 := log2_lt x hx 8 (by norm_num; exact h)
    have h2 : max (Int.log 2 |x|) (-126) - 24 ≤ -17 := by
      have : max (Int.log 2 |x|) (-126) ≤ 7 := max_le (by omega) (by norm_num)
      omega
    calc |fl32 x - x| ≤ 2 ^ (max (Int.log 2 |x|) (-126) - 24) := fl32_err x
      _ ≤ 2 ^ (-17 : Int) := zpow_le_zpow_right₀ (by norm_num) h2
      _ = 1 / 131072 := by norm_num

theorem fl32_exact (m j : Int) (hm : |m| < 2 ^ 24) (hj : -149 ≤ j) :
    fl32 ((m : ℚ) * 2 ^ j) = (m : ℚ) * 2 ^ j := by
  by_cases hm0 : m = 0
  · rw [hm0]; unfold fl32; simp
  have h2 : (0 : ℚ) < 2 ^ j := by positivity
  have hx : (m : ℚ) * 2 ^ j ≠ 0 := mul_ne_zero (by exact_mod_cast hm0) h2.ne'
  have habs : |(m : ℚ) * 2 ^ j| < 2 ^ (24 + j) := by
    rw [abs_mul, abs_of_pos h2, zpow_add₀ (by norm_num : (2 : ℚ) ≠ 0)]
    apply mul_lt_mul_of_pos_right _ h2
    have : ((|m| : Int) : ℚ) < ((2 ^ 24 : Int) : ℚ) := by exact_mod_cast hm
    push_cast at this
    have h24 : (2 : ℚ) ^ (24 : Int) = 16777216 := by norm_num
    rw [h24]
    exact this
  have hlog := log2_lt _ hx _ habs
  unfold fl32
  rw [if_neg hx]
  simp only
  set e := max (Int.log 2 |(m : ℚ) * 2 ^ j|) (-126) with he
  have hle : e - 23 ≤ j := by
    have : e ≤ 23 + j := max_le (by omega) (by omega)
    omega
  obtain ⟨k, hk⟩ : ∃ k : Nat, j = (e - 23) + k := ⟨(j - (e - 23)).toNat, by omega⟩
  have hq : (m : ℚ) * 2 ^ j / 2 ^ (e - 23) = ((m * 2 ^ k : Int) : ℚ) := by
    rw [hk, zpow_add₀ (by norm_num : (2 : ℚ) ≠ 0), zpow_natCast]
    push_cast
    field_simp
    ring
  rw [hq, round_half_even_int, ← hq]
  field_simp

theorem log2_eq (x : ℚ) (k : Int) (h1 : 2 ^ k ≤ |x|) (h2 : |x| < 2 ^ (k + 1)) :
    Int.log 2 |x| = k := by
  have hx : x ≠ 0 := by
    intro h0
    rw [h0, abs_zero] at h1
    exact absurd h1 (not_le.mpr (by positivity))
  have a := log2_lt x hx (k + 1) h2
  have b := le_log2 x hx k h1
  omega

theorem fl32_of_binade (x : ℚ) (h1 : 128 ≤ |x|) (h2 : |x| < 256) :
    fl32 x = (round_half_even (x * 65536) : ℚ) / 65536 := by
  have hx : x ≠ 0 := by
    intro h0
    rw [h0, abs_zero] at h1
    norm_num at h1
  have hlog : Int.log 2 |x| = 7 := log2_eq x 7 (by norm_num; exact h1) (by norm_num; exact h2)
  unfold fl32
  rw [if_neg hx]
  simp only [hlog]
  have hu : (2 : ℚ) ^ ((max 7 (-126) : Int) - 23) = 1 / 65536 := by norm_num
  rw [hu]
  have : x / (1 / 65536) = x * 65536 := by field_simp
  rw [this]
  ring

theorem fl32_gyro_max : fl32 (32767 / 131) = 16392505 / 65536 := by
  rw [fl32_of_binade _ (by rw [abs_of_pos] <;> norm_num) (by rw [abs_of_pos] <;> norm_num)]
  have hf : ⌊(32767 / 131 * 65536 : ℚ)⌋ = 16392504 :=
    Int.floor_eq_iff.mpr ⟨by norm_num, by norm_num⟩
  have hr : round_half_even (32767 / 131 * 65536) = 16392505 := by
    unfold round_half_even
    simp only [hf]
    norm_num
  rw [hr]
  norm_num

theorem no_binary32_near_gyro_max (y : ℚ) (hy : fl32 y = y) :
    1 / 1000000 < |y - 32767 / 131| := by
  by_contra hc
  have hc := abs_le.mp (not_lt.mp hc)
  have hpos : 0 < y := by linarith [hc.1]
  have h1 : 128 ≤ |y| := by rw [abs_of_pos hpos]; linarith [hc.1]
  have h2 : |y| < 256 := by rw [abs_of_pos hpos]; linarith [hc.2]
  rw [fl32_of_binade y h1 h2] at hy
  have hy2 : (round_half_even (y * 65536) : ℚ) = y * 65536 := by
    field_simp at hy
    linarith
  have lo : ((16392504 : Int) : ℚ) < (round_half_even (y * 65536) : ℚ) := by
    rw [hy2]; push_cast; linarith [hc.1]
  have hi : (round_half_even (y * 65536) : ℚ) < ((16392505 : Int) : ℚ) := by
    rw [hy2]; push_cast; linarith [hc.2]
  have lo2 : (16392504 : Int) < round_half_even (y * 65536) := by exact_mod_cast lo
  have hi2 : round_half_even (y * 65536) < (16392505 : Int) := by exact_mod_cast hi
  omega

theorem array_gyroscope (gyro : Fin 3 → Int) (i : Fin 3) :
    (gyroscope gyro).array i = fl32 ((gyro i : ℚ) / 131) := by
  unfold FusionVector.array gyroscope
  fin_cases i <;> simp

theorem array_accelerometer (acceleration : Fin 3 → Int) (i : Fin 3) :
    (accelerometer acceleration).array i = fl32 ((acceleration i : ℚ) / 16384) := by
  unfold FusionVector.array accelerometer
  fin_cases i <;> simp

/-- C6, as stated, fails. For the raw gyroscope reading 32767 the `float` quotient by
`131.0f` is `16392505 / 65536`, more than `1e-6` away from `32767 / 131`; and no binary32
value at all lies within `1e-6` of `32767 / 131`, so no rounding of the division meets the
tolerance. -/
theorem gyro_tolerance_counterexample :
    (gyroscope ![32767, 0, 0]).x = 16392505 / 65536 ∧
    1 / 1000000 < |(gyroscope ![32767, 0, 0]).x - 32767 / 131| ∧
    (∀ y : ℚ, fl32 y = y → 1 / 1000000 < |y - 32767 / 131|) := by
  have hx : (gyroscope ![32767, 0, 0]).x = 16392505 / 65536 := by
    unfold gyroscope
    simp only [Matrix.cons_val_zero]
    push_cast
    exact fl32_gyro_max
  refine ⟨hx, ?_, no_binary32_near_gyro_max⟩
  rw [hx]
  norm_num [abs_of_pos]

/-- C6, amended. For every raw accelerometer reading `r` in `[-32768, 32767]` the
acceleration handed to the estimator is exactly `r / 16384`; for every raw gyroscope
reading `r` in that range the angular rate handed to it is `r / 131` rounded to binary32,
within `2 ^ (-17)` (about `7.63e-6`) of `r / 131`.  The value on an axis is a function of
the raw reading of that axis alone, and these two vectors are the arguments of the
estimator update. -/
theorem unit_converter_scale_factors (acceleration gyro : Fin 3 → Int) (i : Fin 3)
    (ha : -32768 ≤ acceleration i ∧ acceleration i ≤ 32767)
    (hg : -32768 ≤ gyro i ∧ gyro i ≤ 32767) :
    (accelerometer acceleration).array i = (acceleration i : ℚ) / 16384 ∧
    (gyroscope gyro).array i = fl32 ((gyro i : ℚ) / 131) ∧
    |(gyroscope gyro).array i - (gyro i : ℚ) / 131| ≤ 1 / 131072 ∧
    (∀ {σ : Type} (F : Fusion σ) (temp : Int) (ahrs : σ),
      ahrs_update F { accel := acceleration, gyro := gyro, temp := temp } ahrs =
        F.FusionAhrsUpdateNoMagnetometer ahrs (gyroscope gyro) (accelerometer acceleration)
          (fl32 (1 / 100))) := by
  refine ⟨?_, array_gyroscope gyro i, ?_, fun F temp ahrs => rfl⟩
  · rw [array_accelerometer]
    have e : (acceleration i : ℚ) / 16384 = (acceleration i : ℚ) * 2 ^ (-14 : Int) := by
      norm_num
      ring
    rw [e]
    refine fl32_exact (acceleration i) (-14) ?_ (by norm_num)
    have : |acceleration i| ≤ 32768 := abs_le.mpr ⟨by omega, by omega⟩
    have h24 : (2 : Int) ^ 24 = 16777216 := by norm_num
    omega
  · rw [array_gyroscope]
    apply fl32_err_small
    have hq : |(gyro i : ℚ)| ≤ 32768 := by
      have : |gyro i| ≤ 32768 := abs_le.mpr ⟨by omega, by omega⟩
      have : ((|gyro i| : Int) : ℚ) ≤ ((32768 : Int) : ℚ) := by exact_mod_cast this
      push_cast at this
      exact this
    rw [abs_div]
    have h131 : |(131 : ℚ)| = 131 := abs_of_pos (by norm_num)
    rw [h131, div_lt_iff₀ (by norm_num)]
    linarith

/-- Witness of the amended C6 at the resting acceleration and the largest gyroscope
reading. -/
theorem unit_converter_scale_factors_witness :
    (accelerometer ![0, 0, 16384]).array 2 = ((![0, 0, 16384] : Fin 3 → Int) 2 : ℚ) / 16384 ∧
    |(gyroscope ![32767, 0, 0]).array 0 - ((![32767, 0, 0] : Fin 3 → Int) 0 : ℚ) / 131| ≤
      1 / 131072 :=
  ⟨(unit_converter_scale_factors ![0, 0, 16384] ![32767, 0, 0] 2 (by decide) (by decide)).1,
   (unit_converter_scale_factors ![0, 0, 16384] ![32767, 0, 0] 0 (by decide) (by decide)).2.2.1⟩

end Mpu6050
